import Mathlib

/-!
# nightLight: the DST change rule record of tz.h

The header tz.h declares one aggregate, struct dstRule, and documents two
example objects in its leading comment:

    dstRule dstStart = {3, 1, 2, 2, -240, "EDT"};
    dstRule dstEnd = {11, 1, 1, 2, -300, "EST"};

This development embeds the record, the brace initialiser used by the two
examples (including the rule for initialising a char array from a string
literal), member reads, and reading the label back as a NUL-terminated
string.
-/

set_option autoImplicit false
set_option maxRecDepth 4000

namespace NightLight

/-! ## Data model -/

/-- One element of a char array: an 8-bit character code. -/
abbrev CChar := Fin 256

/-- The terminating character of a C string. -/
def NUL : CChar := 0

/-- A char array of fixed extent n, as in the declarator char Abbrev[4]. -/
structure CharArray (n : Nat) where
  bytes : List CChar
  size_eq : bytes.length = n
deriving DecidableEq

/-- The record struct dstRule of tz.h: five int members followed by
char Abbrev[4], in declaration order.  An int member is an integer; tz.h does
no arithmetic on the members, so no width enters and every value of the
machine type is covered. -/
structure dstRule where
  /-- Month the change occurs in, 1-12. -/
  Month : Int
  /-- Day of week the change occurs on, 1-7, 1=Sun, 2=Mon, etc. -/
  DOW : Int
  /-- Which DOW the change occurs on, e.g. DOW=1 and K=2 means second Sunday
  in the month. -/
  K : Int
  /-- Local hour the change occurs on. -/
  Hour : Int
  /-- The offset in minutes to apply to convert UTC to local time after the
  change. -/
  Offset : Int
  /-- Abbreviation for the time zone name. -/
  Abbrev : CharArray 4
deriving DecidableEq

/-! ## String literals and char arrays -/

/-- The characters of an ASCII string literal, without its terminator. -/
def lit (s : String) : List CChar :=
  s.toList.map (fun c => Fin.ofNat c.toNat)

/-- A character sequence is visible when it contains no NUL. -/
def visible (s : List CChar) : Prop := ∀ c ∈ s, c ≠ NUL

instance (s : List CChar) : Decidable (visible s) := by
  unfold visible; infer_instance

/-- Initialising a char array of extent n from a string literal with
characters s: the characters, then the terminator, then zero fill.  The
examples in tz.h are written without the struct keyword, so the header is
C++, where a literal whose characters and terminator exceed the extent is
ill-formed: the initialiser only exists together with the evidence fit. -/
def CharArray.ofLiteral (n : Nat) (s : List CChar) (fit : s.length + 1 ≤ n) : CharArray n :=
  ⟨s ++ List.replicate (n - s.length) NUL, by
    rw [List.length_append, List.length_replicate]; omega⟩

/-- The same initialisation as a checked operation: none for a literal the
compiler rejects. -/
def CharArray.ofLiteral? (n : Nat) (s : List CChar) : Option (CharArray n) :=
  if fit : s.length + 1 ≤ n then some (CharArray.ofLiteral n s fit) else none

/-- Reading a char array as a NUL-terminated string: the characters before
the first NUL.  When the array holds no NUL the read runs off its end, which
has no defined result: none. -/
def CharArray.toCString {n : Nat} (a : CharArray n) : Option (List CChar) :=
  if NUL ∈ a.bytes then some (a.bytes.takeWhile (fun c => c ≠ NUL)) else none

/-! ## Construction -/

/-- The positional brace initialiser {m, d, k, h, o, "a"} of a dstRule. -/
def dstRule.init (m d k h o : Int) (a : List CChar) (fit : a.length + 1 ≤ 4) : dstRule :=
  { Month := m, DOW := d, K := k, Hour := h, Offset := o,
    Abbrev := CharArray.ofLiteral 4 a fit }

/-- The brace initialiser as a checked operation: none exactly when the
label literal is rejected. -/
def dstRule.init? (m d k h o : Int) (a : List CChar) : Option dstRule :=
  if fit : a.length + 1 ≤ 4 then some (dstRule.init m d k h o a fit) else none

/-- The object dstStart = {3, 1, 2, 2, -240, "EDT"} of the header comment. -/
def dstStart : dstRule := dstRule.init 3 1 2 2 (-240) (lit "EDT") (by decide)

/-- The object dstEnd = {11, 1, 1, 2, -300, "EST"} of the header comment. -/
def dstEnd : dstRule := dstRule.init 11 1 1 2 (-300) (lit "EST") (by decide)

/-! ## Member reads -/

/-- The members of struct dstRule, by name. -/
inductive Member where
  | Month | DOW | K | Hour | Offset | Abbrev
deriving DecidableEq, Repr

/-- The result of reading a member: an int or the 4-element char array. -/
inductive Value where
  | int (v : Int)
  | chars (a : CharArray 4)
deriving DecidableEq

/-- The member access expression r.f, as a value. -/
def dstRule.read (r : dstRule) : Member → Value
  | .Month => .int r.Month
  | .DOW => .int r.DOW
  | .K => .int r.K
  | .Hour => .int r.Hour
  | .Offset => .int r.Offset
  | .Abbrev => .chars r.Abbrev

/-- One read in a running program, in state-passing form: the value read
and the object as it is after the read.  A member access writes nothing. -/
def readStep (r : dstRule) (f : Member) : Value × dstRule :=
  (r.read f, r)

/-- A sequence of reads performed one after the other on the same object:
the values read, and the object as it is afterwards. -/
def readAll (r : dstRule) : List Member → List Value × dstRule
  | [] => ([], r)
  | f :: fs =>
    let step := readStep r f
    let rest := readAll step.2 fs
    (step.1 :: rest.1, rest.2)

/-! ## The declaration itself -/

/-- The type of a declared member. -/
inductive CType where
  | int
  | charArray (extent : Nat)
deriving DecidableEq, Repr

/-- The member declarations of struct dstRule, in declaration order. -/
def dstRule.members : List (String × CType) :=
  [("Month", .int), ("DOW", .int), ("K", .int), ("Hour", .int), ("Offset", .int),
   ("Abbrev", .charArray 4)]

/-- The declared type a value belongs to. -/
def Value.ctype : Value → CType
  | .int _ => .int
  | .chars _ => .charArray 4

/-- The name of a member as written in the declaration. -/
def Member.name : Member → String
  | .Month => "Month"
  | .DOW => "DOW"
  | .K => "K"
  | .Hour => "Hour"
  | .Offset => "Offset"
  | .Abbrev => "Abbrev"

/-- All members in declaration order. -/
def Member.all : List Member := [.Month, .DOW, .K, .Hour, .Offset, .Abbrev]

/-- Number of members of type int in a list of declarations. -/
def intMemberCount (ms : List (String × CType)) : Nat :=
  (ms.filter (fun m => decide (m.2 = CType.int))).length

/-! ## The documented meaning of the member values -/

/-- Day of week per the member comment: 1-7, 1=Sun, 2=Mon, etc. -/
def dowName (d : Int) : Option String :=
  match d with
  | 1 => some "Sun"
  | 2 => some "Mon"
  | 3 => some "Tue"
  | 4 => some "Wed"
  | 5 => some "Thu"
  | 6 => some "Fri"
  | 7 => some "Sat"
  | _ => none

/-- Month per the member comment: 1-12, abbreviated as in the header
comment (Mar, Nov). -/
def monthName (m : Int) : Option String :=
  match m with
  | 1 => some "Jan"
  | 2 => some "Feb"
  | 3 => some "Mar"
  | 4 => some "Apr"
  | 5 => some "May"
  | 6 => some "Jun"
  | 7 => some "Jul"
  | 8 => some "Aug"
  | 9 => some "Sep"
  | 10 => some "Oct"
  | 11 => some "Nov"
  | 12 => some "Dec"
  | _ => none

/-- Which occurrence K names, written as in the header comment (1st, 2nd).
A month holds at most five of any weekday; last-occurrence rules are not
supported, so nothing else has a name. -/
def ordinalName (k : Int) : Option String :=
  match k with
  | 1 => some "1st"
  | 2 => some "2nd"
  | 3 => some "3rd"
  | 4 => some "4th"
  | 5 => some "5th"
  | _ => none

/-- The rule in the wording of the header comment, e.g. 2nd Sun in Mar. -/
def dstRule.describe (r : dstRule) : Option String :=
  match ordinalName r.K, dowName r.DOW, monthName r.Month with
  | some k, some d, some m => some (k ++ " " ++ d ++ " in " ++ m)
  | _, _, _ => none

/-- Applying a rule's Offset per the member comment: the offset in minutes
to apply to convert UTC to local time after the change. -/
def dstRule.toLocal (r : dstRule) (utcMinutes : Int) : Int :=
  utcMinutes + r.Offset

/-! ## Calendar instants -/

/-- Modelled from the spec: the time converter that consumes a rule pair is
not part of tz.h.  Gregorian leap years, for the calendar date it computes. -/
def isLeapYear (y : Int) : Bool :=
  decide ((y % 4 = 0 ∧ y % 100 ≠ 0) ∨ y % 400 = 0)

/-- Modelled from the spec: the time converter is not part of tz.h.  Number
of days of month m in year y. -/
def daysInMonth (y m : Int) : Int :=
  match m with
  | 2 => if isLeapYear y then 29 else 28
  | 4 => 30
  | 6 => 30
  | 9 => 30
  | 11 => 30
  | _ => 31

/-- Modelled from the spec: the time converter is not part of tz.h.  Days of
year y that lie before the first day of month m. -/
def daysBeforeMonth (y m : Int) : Int :=
  ((List.range (m.toNat - 1)).map (fun i => daysInMonth y ((i : Int) + 1))).sum

/-- Modelled from the spec: the time converter is not part of tz.h.  The
absolute local calendar date/time month m, day d, hour h of year y, in
minutes since the start of that year. -/
def localInstant (y m d h : Int) : Int :=
  ((daysBeforeMonth y m + (d - 1)) * 24 + h) * 60

/-- Modelled from the spec: the time converter is not part of tz.h.  Offset
converts UTC to local time, so the UTC instant of a local date/time under
offset o is the local instant minus o. -/
def utcInstant (y m d h o : Int) : Int :=
  localInstant y m d h - o

/-! ## Helper lemmas -/

theorem takeWhile_visible_append_nul (s t : List CChar) (hs : visible s) :
    (s ++ NUL :: t).takeWhile (fun c => c ≠ NUL) = s := by
  induction s with
  | nil => simp
  | cons c s ih =>
    have hc : c ≠ NUL := hs c (List.mem_cons_self c s)
    have hs2 : visible s := fun x hx => hs x (List.mem_cons_of_mem c hx)
    have hd : decide (c ≠ NUL) = true := decide_eq_true hc
    rw [List.cons_append, List.takeWhile_cons, hd, ih hs2]
    rfl

theorem ofLiteral_bytes (n : Nat) (s : List CChar) (fit : s.length + 1 ≤ n) :
    (CharArray.ofLiteral n s fit).bytes
      = s ++ NUL :: List.replicate (n - s.length - 1) NUL := by
  have hk : n - s.length = (n - s.length - 1) + 1 := by omega
  show s ++ List.replicate (n - s.length) NUL = _
  rw [hk, List.replicate_succ]
  simp

theorem ofLiteral_roundtrip (n : Nat) (s : List CChar) (fit : s.length + 1 ≤ n)
    (hs : visible s) :
    (CharArray.ofLiteral n s fit).toCString = some s := by
  unfold CharArray.toCString
  rw [ofLiteral_bytes, takeWhile_visible_append_nul s _ hs]
  simp

theorem takeWhile_length_lt_of_nul_mem (l : List CChar) (h : NUL ∈ l) :
    (l.takeWhile (fun c => c ≠ NUL)).length < l.length := by
  induction l with
  | nil => simp at h
  | cons c l ih =>
    rw [List.takeWhile_cons]
    by_cases hc : c = NUL
    · simp [hc]
    · have hd : decide (c ≠ NUL) = true := decide_eq_true hc
      have hm : NUL ∈ l := by
        rcases List.mem_cons.mp h with h1 | h1
        · exact absurd h1.symm hc
        · exact h1
      have := ih hm
      rw [hd]
      simp only [if_true, List.length_cons]
      omega

theorem toCString_length_lt {n : Nat} (a : CharArray n) (s : List CChar)
    (h : a.toCString = some s) : s.length < n := by
  unfold CharArray.toCString at h
  split at h
  · rename_i hm
    have hlt := takeWhile_length_lt_of_nul_mem a.bytes hm
    rw [a.size_eq] at hlt
    cases h
    exact hlt
  · cases h

theorem daysBeforeMonth_three (y : Int) :
    daysBeforeMonth y 3 = 31 + (if isLeapYear y then 29 else 28) := by
  simp [daysBeforeMonth, daysInMonth, List.range_succ]

theorem daysBeforeMonth_eleven (y : Int) :
    daysBeforeMonth y 11 = 276 + (if isLeapYear y then 29 else 28) := by
  simp [daysBeforeMonth, daysInMonth, List.range_succ]
  split <;> omega

theorem read_eq_iff (r1 r2 : dstRule) :
    (∀ f : Member, r1.read f = r2.read f) ↔ r1 = r2 := by
  constructor
  · intro h
    have hM := h .Month
    have hD := h .DOW
    have hK := h .K
    have hH := h .Hour
    have hO := h .Offset
    have hA := h .Abbrev
    simp only [dstRule.read, Value.int.injEq, Value.chars.injEq] at hM hD hK hH hO hA
    cases r1; cases r2
    simp only at hM hD hK hH hO hA
    subst hM hD hK hH hO hA
    rfl
  · intro h f
    rw [h]

theorem readAll_snd (r : dstRule) (fs : List Member) : (readAll r fs).2 = r := by
  induction fs with
  | nil => rfl
  | cons f fs ih => simpa [readAll, readStep] using ih

theorem readAll_fst (r : dstRule) (fs : List Member) :
    (readAll r fs).1 = fs.map r.read := by
  induction fs with
  | nil => rfl
  | cons f fs ih => simpa [readAll, readStep] using ih

/-! ## Construction and field access -/

/-- C1. Round trip of construction and member access: the rule built by the
positional initialiser {m, d, k, h, o, a}, for any int values and any label a
of at most 3 non-NUL characters, reads back Month = m, DOW = d, K = k,
Hour = h, Offset = o and the label a; in particular dstStart reads back
3, 1, 2, 2, -240, "EDT" and dstEnd reads back 11, 1, 1, 2, -300, "EST". -/
theorem init_read_roundtrip (m d k h o : Int) (a : List CChar)
    (hlen : a.length ≤ 3) (hvis : visible a) :
    ((dstRule.init m d k h o a (by omega)).Month = m ∧
     (dstRule.init m d k h o a (by omega)).DOW = d ∧
     (dstRule.init m d k h o a (by omega)).K = k ∧
     (dstRule.init m d k h o a (by omega)).Hour = h ∧
     (dstRule.init m d k h o a (by omega)).Offset = o ∧
     (dstRule.init m d k h o a (by omega)).Abbrev.toCString = some a) ∧
    (dstStart.Month = 3 ∧ dstStart.DOW = 1 ∧ dstStart.K = 2 ∧ dstStart.Hour = 2 ∧
     dstStart.Offset = -240 ∧ dstStart.Abbrev.toCString = some (lit "EDT")) ∧
    (dstEnd.Month = 11 ∧ dstEnd.DOW = 1 ∧ dstEnd.K = 1 ∧ dstEnd.Hour = 2 ∧
     dstEnd.Offset = -300 ∧ dstEnd.Abbrev.toCString = some (lit "EST")) := by
  refine ⟨⟨rfl, rfl, rfl, rfl, rfl, ?_⟩, ?_, ?_⟩
  · exact ofLiteral_roundtrip 4 a (by omega) hvis
  · decide
  · decide

theorem init_read_roundtrip_witness :
    (lit "PST").length ≤ 3 ∧ visible (lit "PST") ∧
    (dstRule.init 11 1 1 2 (-480) (lit "PST") (by decide)).Offset = -480 ∧
    (dstRule.init 11 1 1 2 (-480) (lit "PST") (by decide)).Abbrev.toCString
      = some (lit "PST") :=
  ⟨by decide, by decide,
   (init_read_roundtrip 11 1 1 2 (-480) (lit "PST") (by decide) (by decide)).1.2.2.2.2.1,
   (init_read_roundtrip 11 1 1 2 (-480) (lit "PST") (by decide) (by decide)).1.2.2.2.2.2⟩

/-- C2. Label storage is lossless and injective up to the supported length:
a literal s of at most 3 non-NUL characters stored in the 4-byte Abbrev
array keeps all its characters followed by the terminator and reads back as
exactly s, and two different such literals give different array contents. -/
theorem abbrev_storage_lossless_injective (s t : List CChar)
    (hs : s.length ≤ 3) (hsv : visible s) (ht : t.length ≤ 3) (htv : visible t) :
    (CharArray.ofLiteral 4 s (by omega)).bytes.take (s.length + 1) = s ++ [NUL] ∧
    (CharArray.ofLiteral 4 s (by omega)).toCString = some s ∧
    (s ≠ t → CharArray.ofLiteral 4 s (by omega) ≠ CharArray.ofLiteral 4 t (by omega)) ∧
    (s ≠ t → (CharArray.ofLiteral 4 s (by omega)).bytes
               ≠ (CharArray.ofLiteral 4 t (by omega)).bytes) := by
  have rs := ofLiteral_roundtrip 4 s (by omega) hsv
  have rt := ofLiteral_roundtrip 4 t (by omega) htv
  have key : s ≠ t → CharArray.ofLiteral 4 s (by omega) ≠ CharArray.ofLiteral 4 t (by omega) := by
    intro hne heq
    rw [heq, rt] at rs
    exact hne (Option.some.inj rs).symm
  refine ⟨?_, rs, key, ?_⟩
  · rw [ofLiteral_bytes]
    have : s ++ NUL :: List.replicate (4 - s.length - 1) NUL
        = (s ++ [NUL]) ++ List.replicate (4 - s.length - 1) NUL := by simp
    rw [this]
    have hl : (s ++ [NUL]).length = s.length + 1 := by simp
    rw [← hl, List.take_left]
  · intro hne hb
    apply key hne
    cases h1 : CharArray.ofLiteral 4 s (by omega) with
    | mk b1 p1 =>
      cases h2 : CharArray.ofLiteral 4 t (by omega) with
      | mk b2 p2 =>
        rw [h1, h2] at hb
        simp only at hb
        subst hb
        rfl

theorem abbrev_storage_lossless_injective_witness :
    (lit "EDT").length ≤ 3 ∧ visible (lit "EDT") ∧
    (lit "EST").length ≤ 3 ∧ visible (lit "EST") ∧
    (CharArray.ofLiteral 4 (lit "EDT") (by decide)).toCString = some (lit "EDT") ∧
    (lit "EDT" ≠ lit "EST" →
      CharArray.ofLiteral 4 (lit "EDT") (by decide)
        ≠ CharArray.ofLiteral 4 (lit "EST") (by decide)) :=
  ⟨by decide, by decide, by decide, by decide,
   (abbrev_storage_lossless_injective (lit "EDT") (lit "EST")
      (by decide) (by decide) (by decide) (by decide)).2.1,
   (abbrev_storage_lossless_injective (lit "EDT") (lit "EST")
      (by decide) (by decide) (by decide) (by decide)).2.2.1⟩

/-! ## Declaration, equality, reads -/

/-- C3 (counterexample). The declaration does list the members Month, DOW,
K, Hour, Offset, Abbrev in that order with kinds int, int, int, int, int,
char[4], but the number of its int members is not four. -/
theorem dstRule_layout_four_ints_fails :
    ¬ (dstRule.members =
        [("Month", CType.int), ("DOW", CType.int), ("K", CType.int), ("Hour", CType.int),
         ("Offset", CType.int), ("Abbrev", CType.charArray 4)] ∧
       intMemberCount dstRule.members = 4) := by
  decide

/-- C3 (amended). The declaration of dstRule is five int members followed by
one char array of extent 4, in the order Month, DOW, K, Hour, Offset, Abbrev;
reading the members of any rule in declaration order yields values of exactly
those names and kinds. -/
theorem dstRule_layout_five_ints (r : dstRule) :
    dstRule.members =
      [("Month", CType.int), ("DOW", CType.int), ("K", CType.int), ("Hour", CType.int),
       ("Offset", CType.int), ("Abbrev", CType.charArray 4)] ∧
    intMemberCount dstRule.members = 5 ∧
    dstRule.members.length = 6 ∧
    Member.all.map (fun f => (f.name, (r.read f).ctype)) = dstRule.members ∧
    r.Abbrev.bytes.length = 4 := by
  refine ⟨rfl, by decide, rfl, rfl, r.Abbrev.size_eq⟩

/-- C4. Equality of rules is member-wise: two rules are equal exactly when
they agree on Month, DOW, K, Hour, Offset and Abbrev, and exactly when every
member read gives the same value on both. -/
theorem dstRule_eq_iff_fields (r1 r2 : dstRule) :
    (r1 = r2 ↔
      (r1.Month = r2.Month ∧ r1.DOW = r2.DOW ∧ r1.K = r2.K ∧ r1.Hour = r2.Hour ∧
       r1.Offset = r2.Offset ∧ r1.Abbrev = r2.Abbrev)) ∧
    (r1 = r2 ↔ ∀ f : Member, r1.read f = r2.read f) := by
  refine ⟨?_, (read_eq_iff r1 r2).symm⟩
  constructor
  · intro h
    subst h
    exact ⟨rfl, rfl, rfl, rfl, rfl, rfl⟩
  · rintro ⟨hM, hD, hK, hH, hO, hA⟩
    cases r1; cases r2
    simp only at hM hD hK hH hO hA
    subst hM hD hK hH hO hA
    rfl

/-- C5. Reading is effect-free: after any sequence of member reads the rule
is the one the sequence started from, the values read are the member values
of that rule, and a read made after the sequence returns what the same read
returns when made first. -/
theorem reads_leave_rule_unchanged (r : dstRule) (fs : List Member) :
    (readAll r fs).2 = r ∧
    (readAll r fs).1 = fs.map r.read ∧
    (∀ f : Member, (readStep (readAll r fs).2 f).1 = (readStep r f).1) ∧
    (∀ f : Member, (readStep r f).2 = r) := by
  refine ⟨readAll_snd r fs, readAll_fst r fs, ?_, fun _ => rfl⟩
  intro f
  rw [readAll_snd]

/-- C6. The type performs no range validation and construction cannot fail
on account of the int values: for any int values, also outside the
documented ranges (Month = 13, DOW = 0, Hour = 24), the initialiser with a
label that fits yields a rule that reads the values back unchanged, the
checked initialiser succeeds, and whether it succeeds does not depend on the
int values. -/
theorem init_no_range_validation (m d k h o : Int) (a : List CChar)
    (fit : a.length + 1 ≤ 4) :
    dstRule.init? m d k h o a = some (dstRule.init m d k h o a fit) ∧
    ((dstRule.init m d k h o a fit).Month = m ∧ (dstRule.init m d k h o a fit).DOW = d ∧
     (dstRule.init m d k h o a fit).K = k ∧ (dstRule.init m d k h o a fit).Hour = h ∧
     (dstRule.init m d k h o a fit).Offset = o) ∧
    (∀ m2 d2 k2 h2 o2 : Int, ∀ b : List CChar,
      (dstRule.init? m2 d2 k2 h2 o2 b).isSome = (CharArray.ofLiteral? 4 b).isSome) ∧
    (∀ ab : CharArray 4, ∃ r : dstRule, r.Month = m ∧ r.DOW = d ∧ r.K = k ∧ r.Hour = h ∧
      r.Offset = o ∧ r.Abbrev = ab) ∧
    ((dstRule.init 13 0 0 24 0 a fit).Month = 13 ∧ (dstRule.init 13 0 0 24 0 a fit).DOW = 0 ∧
     (dstRule.init 13 0 0 24 0 a fit).Hour = 24) := by
  refine ⟨?_, ⟨rfl, rfl, rfl, rfl, rfl⟩, ?_, ?_, ⟨rfl, rfl, rfl⟩⟩
  · simp [dstRule.init?, fit]
  · intro m2 d2 k2 h2 o2 b
    unfold dstRule.init? CharArray.ofLiteral?
    by_cases hb : b.length + 1 ≤ 4 <;> simp [hb]
  · intro ab
    exact ⟨⟨m, d, k, h, o, ab⟩, rfl, rfl, rfl, rfl, rfl, rfl⟩

theorem init_no_range_validation_witness :
    (lit "EDT").length + 1 ≤ 4 ∧
    dstRule.init? 13 0 (-1) 24 100000 (lit "EDT")
      = some (dstRule.init 13 0 (-1) 24 100000 (lit "EDT") (by decide)) ∧
    (dstRule.init 13 0 (-1) 24 100000 (lit "EDT") (by decide)).Month = 13 :=
  ⟨by decide,
   (init_no_range_validation 13 0 (-1) 24 100000 (lit "EDT") (by decide)).1,
   (init_no_range_validation 13 0 (-1) 24 100000 (lit "EDT") (by decide)).2.1.1⟩

/-! ## The documented example pair -/

/-- C7. The US Eastern example values encode the rule the header comment
states: dstStart is Month 3 (Mar), DOW 1 (Sun), K 2 (2nd), Hour 2; dstEnd is
Month 11 (Nov), DOW 1 (Sun), K 1 (1st), Hour 2; that is, 2nd Sun in Mar and
1st Sun in Nov, both at hour 2, the end rule using K = 1. -/
theorem example_rules_encode_documented_rule :
    (dstStart.Month = 3 ∧ monthName dstStart.Month = some "Mar" ∧
     dstStart.DOW = 1 ∧ dowName dstStart.DOW = some "Sun" ∧
     dstStart.K = 2 ∧ ordinalName dstStart.K = some "2nd" ∧
     dstStart.Hour = 2 ∧ dstStart.describe = some "2nd Sun in Mar") ∧
    (dstEnd.Month = 11 ∧ monthName dstEnd.Month = some "Nov" ∧
     dstEnd.DOW = 1 ∧ dowName dstEnd.DOW = some "Sun" ∧
     dstEnd.K = 1 ∧ ordinalName dstEnd.K = some "1st" ∧
     dstEnd.Hour = 2 ∧ dstEnd.describe = some "1st Sun in Nov") := by
  decide

/-- C8. Both example rules satisfy every member constraint of the data
model: Month in 1..12, DOW in 1..7, K in 1..5, Hour in 0..23, and a label of
at most 3 visible characters, which fits the 4-byte Abbrev array together
with its terminator. -/
theorem example_rules_within_ranges :
    (1 ≤ dstStart.Month ∧ dstStart.Month ≤ 12 ∧ 1 ≤ dstStart.DOW ∧ dstStart.DOW ≤ 7 ∧
     1 ≤ dstStart.K ∧ dstStart.K ≤ 5 ∧ 0 ≤ dstStart.Hour ∧ dstStart.Hour ≤ 23 ∧
     dstStart.Abbrev.toCString = some (lit "EDT") ∧ visible (lit "EDT") ∧
     (lit "EDT").length ≤ 3 ∧ (lit "EDT").length + 1 ≤ dstStart.Abbrev.bytes.length) ∧
    (1 ≤ dstEnd.Month ∧ dstEnd.Month ≤ 12 ∧ 1 ≤ dstEnd.DOW ∧ dstEnd.DOW ≤ 7 ∧
     1 ≤ dstEnd.K ∧ dstEnd.K ≤ 5 ∧ 0 ≤ dstEnd.Hour ∧ dstEnd.Hour ≤ 23 ∧
     dstEnd.Abbrev.toCString = some (lit "EST") ∧ visible (lit "EST") ∧
     (lit "EST").length ≤ 3 ∧ (lit "EST").length + 1 ≤ dstEnd.Abbrev.bytes.length) := by
  decide

/-- C9. The example pair follows the monotonic transition ordering:
dstStart.Month (3) is below dstEnd.Month (11), so in every year, for every
admissible day and hour within those months, the start-of-DST date/time
precedes the end-of-DST date/time of the same year, as local calendar time
and as UTC instant under either of the pair's offsets. -/
theorem example_pair_start_precedes_end (y d1 h1 d2 h2 o1 o2 : Int)
    (hd1 : 1 ≤ d1 ∧ d1 ≤ daysInMonth y dstStart.Month) (hh1 : 0 ≤ h1 ∧ h1 ≤ 23)
    (hd2 : 1 ≤ d2 ∧ d2 ≤ daysInMonth y dstEnd.Month) (hh2 : 0 ≤ h2 ∧ h2 ≤ 23)
    (ho1 : o1 = dstStart.Offset ∨ o1 = dstEnd.Offset)
    (ho2 : o2 = dstStart.Offset ∨ o2 = dstEnd.Offset) :
    dstStart.Month < dstEnd.Month ∧
    localInstant y dstStart.Month d1 h1 < localInstant y dstEnd.Month d2 h2 ∧
    utcInstant y dstStart.Month d1 h1 o1 < utcInstant y dstEnd.Month d2 h2 o2 := by
  have hs : dstStart.Month = 3 := rfl
  have he : dstEnd.Month = 11 := rfl
  have hd1b : d1 ≤ 31 := hd1.2
  have hd1a : 1 ≤ d1 := hd1.1
  have hd2a : 1 ≤ d2 := hd2.1
  have ho1n : o1 = -240 ∨ o1 = -300 := ho1
  have ho2n : o2 = -240 ∨ o2 = -300 := ho2
  obtain ⟨hh1a, hh1b⟩ := hh1
  obtain ⟨hh2a, hh2b⟩ := hh2
  rw [hs, he]
  unfold utcInstant localInstant
  rw [daysBeforeMonth_three, daysBeforeMonth_eleven]
  refine ⟨by decide, ?_, ?_⟩
  · split <;> omega
  · split <;> omega

theorem example_pair_start_precedes_end_witness :
    (1 ≤ (10 : Int) ∧ 10 ≤ daysInMonth 2024 dstStart.Month) ∧
    (1 ≤ (3 : Int) ∧ 3 ≤ daysInMonth 2024 dstEnd.Month) ∧
    localInstant 2024 dstStart.Month 10 2 < localInstant 2024 dstEnd.Month 3 2 ∧
    utcInstant 2024 dstStart.Month 10 2 dstEnd.Offset
      < utcInstant 2024 dstEnd.Month 3 2 dstStart.Offset :=
  ⟨by decide, by decide,
   (example_pair_start_precedes_end 2024 10 2 3 2 dstEnd.Offset dstStart.Offset
      (by decide) (by decide) (by decide) (by decide) (Or.inr rfl) (Or.inl rfl)).2.1,
   (example_pair_start_precedes_end 2024 10 2 3 2 dstEnd.Offset dstStart.Offset
      (by decide) (by decide) (by decide) (by decide) (Or.inr rfl) (Or.inl rfl)).2.2⟩

/-- C10. The Abbrev capacity bound is tight: the array holds exactly 4
bytes, so a label of 4 or more characters cannot be stored in it together
with a NUL terminator, its initialiser is rejected, and no array content
reads back as that label; labels of 3 visible characters do round-trip, so 3
is the largest length the round trip preserves. -/
theorem abbrev_capacity_tight (s : List CChar) (hlen : 4 ≤ s.length) :
    (∀ a : CharArray 4, a.bytes.length = 4) ∧
    (∀ a : CharArray 4, ¬ (s ++ [NUL] <+: a.bytes)) ∧
    CharArray.ofLiteral? 4 s = none ∧
    (∀ m d k h o : Int, dstRule.init? m d k h o s = none) ∧
    (∀ a : CharArray 4, a.toCString ≠ some s) ∧
    (∀ a : CharArray 4, ∀ t : List CChar, a.toCString = some t → t.length ≤ 3) ∧
    (∀ t : List CChar, ∀ ht : t.length = 3, visible t →
      (CharArray.ofLiteral 4 t (by omega)).toCString = some t) := by
  refine ⟨fun a => a.size_eq, ?_, ?_, ?_, ?_, ?_, ?_⟩
  · intro a hp
    have hle := hp.length_le
    rw [a.size_eq, List.length_append] at hle
    simp at hle
    omega
  · unfold CharArray.ofLiteral?
    rw [dif_neg (by omega)]
  · intro m d k h o
    unfold dstRule.init?
    rw [dif_neg (by omega)]
  · intro a ha
    have := toCString_length_lt a s ha
    omega
  · intro a t ha
    have := toCString_length_lt a t ha
    omega
  · intro t ht hv
    exact ofLiteral_roundtrip 4 t (by omega) hv

theorem abbrev_capacity_tight_witness :
    4 ≤ (lit "AEST").length ∧
    CharArray.ofLiteral? 4 (lit "AEST") = none ∧
    (∀ a : CharArray 4, a.toCString ≠ some (lit "AEST")) :=
  ⟨by decide,
   (abbrev_capacity_tight (lit "AEST") (by decide)).2.2.1,
   (abbrev_capacity_tight (lit "AEST") (by decide)).2.2.2.2.1⟩

/-- C11. In the documented example the daylight offset is exactly one hour
ahead of the standard offset: dstStart.Offset - dstEnd.Offset = 60 minutes,
with -240 = -(4 * 60) (UTC minus 4 hours) and -300 = -(5 * 60) (UTC minus 5
hours), both whole multiples of 60 and both negative; the difference also
lies within a 16-bit int, so the subtraction is exact at any int width, and
local time under dstStart is 60 minutes ahead of local time under dstEnd at
every UTC minute. -/
theorem example_offsets_one_hour_apart (utcMinutes : Int) :
    dstStart.Offset - dstEnd.Offset = 60 ∧
    dstStart.Offset = -240 ∧ dstEnd.Offset = -300 ∧
    dstStart.Offset = -(4 * 60) ∧ dstEnd.Offset = -(5 * 60) ∧
    dstStart.Offset % 60 = 0 ∧ dstEnd.Offset % 60 = 0 ∧
    dstStart.Offset / 60 = -4 ∧ dstEnd.Offset / 60 = -5 ∧
    dstStart.Offset < 0 ∧ dstEnd.Offset < 0 ∧
    (-32768 ≤ dstStart.Offset - dstEnd.Offset ∧ dstStart.Offset - dstEnd.Offset ≤ 32767) ∧
    dstStart.toLocal utcMinutes = dstEnd.toLocal utcMinutes + 60 := by
  have hs : dstStart.Offset = -240 := rfl
  have he : dstEnd.Offset = -300 := rfl
  refine ⟨by decide, hs, he, by decide, by decide, by decide, by decide, by decide,
    by decide, by decide, by decide, by decide, ?_⟩
  unfold dstRule.toLocal
  rw [hs, he]
  omega

end NightLight
